import Mathlib

/-!
Verification of the tag-lifecycle engine of the yeti repository
(`src/core/observables/observable.py`), as a shallow embedding in Lean.

Conventions of the embedding:
* machine time (`datetime.utcnow()`) is an abstract `Nat` passed explicitly
  as `now`; durations (`timedelta`) are `Option Nat` (`none` = Python `None`);
* MongoDB documents become Lean structures; mongoengine's `modify` calls
  become explicit state transformation (the positional operator `$` updates
  the first matching array element, `pull` removes every matching element,
  `add_to_set` appends when absent);
* Python exceptions become `Except` results;
* catalog `Tag` documents carry an id, because mongoengine compares and
  hashes documents by primary key.
-/

namespace Yeti

/-- Python `str.strip()` whitespace test for one character. -/
def isWS (c : Char) : Bool := c == ' ' || c == '\t' || c == '\n' || c == '\r'

/-- Python `str.strip()`: drop leading and trailing whitespace. -/
def pyStrip (s : String) : String :=
  ⟨((s.data.dropWhile isWS).reverse.dropWhile isWS).reverse⟩

/-- ASCII lower-casing of one character. -/
def lowerChar (c : Char) : Char :=
  if 'A' ≤ c ∧ c ≤ 'Z' then Char.ofNat (c.toNat + 32) else c

/-- Python `str.lower()` (ASCII fragment). -/
def pyLower (s : String) : String := ⟨s.data.map lowerChar⟩

/-- Modelled from the spec: the catalog module `core/observables/tag.py` is not
under `src/`; per spec §3 a catalog tag name is "case/whitespace-normalized",
which `Tag.clean` performs. -/
def cleanTagName (s : String) : String := pyLower (pyStrip s)

/-- Python truthiness of an optional duration: `None` and a zero
`timedelta` are falsy, any other duration is truthy. -/
def truthyDur : Option Nat → Bool
  | none => false
  | some d => d != 0

/-- Modelled from the spec: `TagApplication` (§3), the embedded
`ObservableTag` document (catalog module not under `src/`): one entry of an
indicator's tag set, with name, firstSeen, lastSeen, nullable expiration and
a freshness flag. -/
structure ObservableTag where
  name : String
  firstSeen : Nat
  lastSeen : Nat
  expiration : Option Nat
  fresh : Bool
deriving Repr, DecidableEq

/-- Modelled from the spec: catalog `Tag` entry (§3): unique normalized
`name`, alias names (`replaces`), derived tags (`produces`, references to
other catalog entries, here by document id `tid`), optional default
expiration, and a usage counter.  `tid` models the mongoengine primary key,
by which documents are compared and hashed. -/
structure CatalogTag where
  tid : Nat
  name : String
  replaces : List String
  produces : List Nat
  defaultExpiration : Option Nat
  count : Nat
deriving Repr, DecidableEq

/-- The tag catalog: the collection of all catalog `Tag` documents. -/
abbrev Catalog := List CatalogTag

/-- The `Observable` document state used by the claims: unique `value`,
the embedded tag list, the context entries (key-sorted dictionaries,
modelled as association lists), and `last_tagged`. -/
structure Observable where
  value : String
  tags : List ObservableTag
  context : List (List (String × String))
  lastTagged : Option Nat
deriving Repr, DecidableEq

/-- Python exceptions surfaced by the modelled operations: a bare
`assert` failure, and `ObservableValidationError` with its message. -/
inductive YetiError where
  | assertionError : YetiError
  | validationError : String → YetiError
deriving Repr, DecidableEq

/-- `Tag.objects.get(name=n)` / the lookup half of `Tag.get_or_create`. -/
def findByName (cat : Catalog) (n : String) : Option CatalogTag :=
  cat.find? (fun t => t.name == n)

/-- `Tag.objects.get(replaces=n)`: the catalog tag whose alias list
contains `n` (`DoesNotExist` becomes `none`). -/
def findByReplaces (cat : Catalog) (n : String) : Option CatalogTag :=
  cat.find? (fun t => t.replaces.contains n)

/-- Dereference one `produces` reference by document id. -/
def findById (cat : Catalog) (i : Nat) : Option CatalogTag :=
  cat.find? (fun t => t.tid == i)

/-- A fresh document id for a newly created catalog tag. -/
def freshId (cat : Catalog) : Nat := cat.foldl (fun m t => Nat.max m t.tid) 0 + 1

/-- `Tag.get_or_create(name=n)`: return the existing catalog tag of that
name, or create one with empty `replaces`/`produces`, no default
expiration and usage count 0. -/
def getOrCreate (cat : Catalog) (n : String) : CatalogTag × Catalog :=
  match findByName cat n with
  | some t => (t, cat)
  | none => (⟨freshId cat, n, [], [], none, 0⟩, cat ++ [⟨freshId cat, n, [], [], none, 0⟩])

/-- `tag.modify(inc__count=1)` on the catalog document with id `i`. -/
def incCount (cat : Catalog) (i : Nat) : Catalog :=
  cat.map (fun t => if t.tid == i then { t with count := t.count + 1 } else t)

/-- Mongo's positional-`$` update: transform the first list element
satisfying `p` and leave everything else unchanged. -/
def updateFirst (p : ObservableTag → Bool) (f : ObservableTag → ObservableTag) :
    List ObservableTag → List ObservableTag
  | [] => []
  | t :: ts => if p t then f t :: ts else t :: updateFirst p f ts

/-- Does the tag set contain an entry of the given name
(the query `{"tags__name": n}`)? -/
def hasName (ts : List ObservableTag) (n : String) : Bool :=
  ts.any (fun e => e.name == n)

/-- The first entry of the given name, the one mongo's positional
operator addresses. -/
def firstNamed (ts : List ObservableTag) (n : String) : Option ObservableTag :=
  ts.find? (fun e => e.name == n)

/-- The names of an indicator's tag entries, in list order. -/
def tagNames (ts : List ObservableTag) : List String := ts.map (fun e => e.name)

/-- `set__tags__S__fresh=True, set__tags__S__last_seen=utcnow()`:
the refresh half of the tag upsert. -/
def refreshEntry (now : Nat) (e : ObservableTag) : ObservableTag :=
  { e with fresh := true, lastSeen := now }

/-- One step of `Observable.tag`'s inner loop (observable.py lines 265-268):
on state `(catalog, tag entries)`, try the conditional refresh of an entry
named `t.name`; if none matched, push a new `ObservableTag` with
`first_seen = last_seen = now` and the loop's current `expiration`, and
increment the catalog tag's usage count. -/
def upsertTag (now : Nat) (exp : Option Nat) (st : Catalog × List ObservableTag)
    (t : CatalogTag) : Catalog × List ObservableTag :=
  if hasName st.2 t.name then
    (st.1, updateFirst (fun e => e.name == t.name) (refreshEntry now) st.2)
  else
    (incCount st.1 t.tid, st.2 ++ [⟨t.name, now, now, exp, true⟩])

/-- `if not expiration: expiration = tag.default_expiration`
(observable.py lines 256-257): the loop-carried expiration variable is
replaced by the canonical tag's default exactly when it is falsy. -/
def resolveExp (cur : Option Nat) (t : CatalogTag) : Option Nat :=
  if truthyDur cur then cur else t.defaultExpiration

/-- The loop-carried state of `Observable.tag`: current catalog, current
tag entries, the (reassigned!) `expiration` variable, and the `tagged`
flag. -/
structure TagLoopState where
  cat : Catalog
  tags : List ObservableTag
  exp : Option Nat
  tagged : Bool
deriving Repr

/-- Alias resolution of `Observable.tag` (observable.py lines 251-254):
`try: tag = Tag.objects.get(replaces=name) except DoesNotExist:
tag = Tag.get_or_create(name=name)`; returns the canonical tag and the
(possibly extended) catalog. -/
def canonicalPair (cat : Catalog) (cleaned : String) : CatalogTag × Catalog :=
  match findByReplaces cat cleaned with
  | some t => (t, cat)
  | none => getOrCreate cat cleaned

/-- `extra_tags = tag.produces + [tag]` (observable.py line 259): the
application set — the dereferenced `produces` references followed by the
canonical tag itself; a single level of derivation, no recursive
closure. -/
def extraTags (pair : CatalogTag × Catalog) : List CatalogTag :=
  (pair.1.produces.filterMap (findById pair.2)) ++ [pair.1]

/-- The body of `for new_tag in new_tags:` in `Observable.tag`
(observable.py lines 244-268): skip blank raw names; normalize; resolve an
alias (`replaces`) or get-or-create the canonical tag; update the carried
`expiration`; upsert every tag of `tag.produces + [tag]` (single-level
derivation).  The entity auto-link step touches only the separate link
store and no state modelled here. -/
def processName (now : Nat) (st : TagLoopState) (raw : String) : TagLoopState :=
  if pyStrip raw == "" then st
  else
    let pair := canonicalPair st.cat (cleanTagName raw)
    let exp1 := resolveExp st.exp pair.1
    let res := (extraTags pair).foldl (upsertTag now exp1) (pair.2, st.tags)
    ⟨res.1, res.2, exp1, true⟩

/-- `Observable.tag(new_tags, strict, expiration)` (observable.py lines
218-273).  With `strict`, every current entry whose name is not among the
*raw* input names is pulled first.  Then each raw name is processed in
order, threading catalog, entries and the `expiration` variable; if any
name was non-blank, `last_tagged` is set to now. -/
def Observable.tag (cat : Catalog) (o : Observable) (newTags : List String)
    (strict : Bool) (exp : Option Nat) (now : Nat) : Catalog × Observable :=
  let tags0 := if strict then o.tags.filter (fun e => newTags.contains e.name) else o.tags
  let st := newTags.foldl (processName now) ⟨cat, tags0, exp, false⟩
  (st.cat, { o with
              tags := st.tags
              lastTagged := if st.tagged then some now else o.lastTagged })

/-- `Observable.change_tag(old_tag, new_tag)` (observable.py lines
208-212): conditionally rename the first entry named `old_tag` in place
when no entry named `new_tag` exists; otherwise pull every `old_tag` entry
and refresh `new_tag`'s `last_seen`. -/
def Observable.change_tag (o : Observable) (oldT newT : String) (now : Nat) :
    Observable :=
  if hasName o.tags oldT && !hasName o.tags newT then
    { o with tags := (updateFirst (fun e => e.name == oldT)
        (fun e => { e with name := newT }) o.tags) }
  else
    let t1 := if hasName o.tags oldT
      then o.tags.filter (fun e => !(e.name == oldT)) else o.tags
    let t2 := if hasName t1 newT
      then updateFirst (fun e => e.name == newT)
        (fun e => { e with lastSeen := now }) t1
      else t1
    { o with tags := t2 }

/-- One entry of `Observable.expire_tags` (observable.py lines 288-290):
`if tag.expiration and (tag.last_seen + tag.expiration) < utcnow(): fresh = False`.
A `None` or zero expiration is falsy, so such entries are never touched. -/
def expireOne (now : Nat) (t : ObservableTag) : ObservableTag :=
  match t.expiration with
  | none => t
  | some d => if d ≠ 0 ∧ t.lastSeen + d < now then { t with fresh := false } else t

/-- `Observable.expire_tags()` (observable.py lines 287-291). -/
def Observable.expire_tags (o : Observable) (now : Nat) : Observable :=
  { o with tags := o.tags.map (expireOne now) }

/-- `Observable.get_tags(fresh=True)` (observable.py lines 173-183):
`[t.name for t in self.tags if (t.fresh or not fresh)]`. -/
def Observable.get_tags (o : Observable) (fr : Bool) : List String :=
  (o.tags.filter (fun t => t.fresh || !fr)).map (fun t => t.name)

/-- Python dict read `m.get(k)`, the dict keyed by catalog Tag documents
(mongoengine hashes and compares documents by primary key, so the key is
the document id). -/
def dictGet (m : List (Nat × Nat)) (k : Nat) : Option Nat :=
  (m.find? (fun kv => kv.1 == k)).map (fun kv => kv.2)

/-- Python dict write `m[k] = v`: overwrite in place or append. -/
def dictPut (m : List (Nat × Nat)) (k v : Nat) : List (Nat × Nat) :=
  if m.any (fun kv => kv.1 == k) then
    m.map (fun kv => if kv.1 == k then (k, v) else kv)
  else m ++ [(k, v)]

/-- `tag in localtags` in `Observable.find_tags` compares a catalog `Tag`
document with a `str`: mongoengine's `Document.__eq__` returns `False` for
a non-document argument and `str.__eq__` returns `NotImplemented`, so the
test is always false. -/
def tagDocEqName (_k : Nat) (_s : String) : Bool := false

/-- `Observable.find_tags()` (observable.py lines 185-199).  First loop:
for each applied entry, fetch the catalog tag of that name (`DoesNotExist`
— an applied name absent from the catalog — makes the whole call fail,
modelled as `none`), and for each of its `produces` references run
`new_tags[produces] = new_tags.get(tag, 0) + 1` — note the read is keyed by
the *applied* tag document, not by the produced one.  Second loop: drop
keys that equal a local tag name, a comparison of a document with a string
that never succeeds. -/
def find_tags (cat : Catalog) (o : Observable) : Option (List (Nat × Nat)) :=
  let m? := o.tags.foldl
    (fun acc ot => acc.bind (fun m =>
      (findByName cat ot.name).map (fun t =>
        t.produces.foldl
          (fun m2 pid => dictPut m2 pid ((dictGet m2 t.tid).getD 0 + 1)) m)))
    (some [])
  let localNames := o.tags.map (fun ot => ot.name)
  m?.map (fun m => m.filter (fun kv => !(localNames.any (fun ln => tagDocEqName kv.1 ln))))

/-- The keys of a context dictionary. -/
def ctxKeys (c : List (String × String)) : List String := c.map (fun kv => kv.1)

/-- Insertion step of sorting a context dict by key. -/
def insertSorted (kv : String × String) :
    List (String × String) → List (String × String)
  | [] => [kv]
  | x :: xs => if kv.1 ≤ x.1 then kv :: x :: xs else x :: insertSorted kv xs

/-- `{k: v for k, v in sorted(context.items(), key=itemgetter(0))}`:
the context dict with its keys in sorted order. -/
def sortCtx (c : List (String × String)) : List (String × String) :=
  c.foldr insertSorted []

/-- The `source` field of a context entry. -/
def ctxSource (c : List (String × String)) : Option String :=
  (c.find? (fun kv => kv.1 == "source")).map (fun kv => kv.2)

/-- `Observable.add_context(context, replace_source)` (observable.py lines
122-149): `assert 'source' in context` (a bare `AssertionError`, raised
before any store mutation); then sort the entry by key, optionally
`pull__context__source=replace_source` (skipped for a falsy value), then
`add_to_set__context=context`. -/
def Observable.add_context (o : Observable) (ctx : List (String × String))
    (replaceSource : Option String) : Except YetiError Observable :=
  if (ctxKeys ctx).contains "source" then
    let c := sortCtx ctx
    let o1 := match replaceSource with
      | some rs =>
        if rs == "" then o
        else { o with context := o.context.filter (fun e => !(ctxSource e == some rs)) }
      | none => o
    if o1.context.contains c then Except.ok o1
    else Except.ok { o1 with context := o1.context ++ [c] }
  else Except.error YetiError.assertionError

/-- The concrete observable variants scanned by `guess_type`, in source
order. -/
inductive ObsType where
  | url | ip | email | hostname | hash
deriving Repr, DecidableEq

/-- `Observable.guess_type(string)` (observable.py lines 69-89),
parametrized by the five variants' `check_type` predicates (their classes
live outside this engine).  `if string and string.strip() != ''` guards the
whole body: for a falsy or whitespace-only string the function falls
through and returns Python `None`, modelled as `Except.ok none`; otherwise
the first matching variant is returned, and if none matches an
`ObservableValidationError` is raised. -/
def guess_type (cUrl cIp cEmail cHostname cHash : String → Bool) (s : String) :
    Except YetiError (Option ObsType) :=
  if (s != "") && (pyStrip s != "") then
    if cUrl s then Except.ok (some ObsType.url)
    else if cIp s then Except.ok (some ObsType.ip)
    else if cEmail s then Except.ok (some ObsType.email)
    else if cHostname s then Except.ok (some ObsType.hostname)
    else if cHash s then Except.ok (some ObsType.hash)
    else Except.error (YetiError.validationError
      (s ++ " was not recognized as a viable datatype"))
  else Except.ok none

/-- The tag-list component of one upsert step, separated from its catalog
effect (the pushed entry depends only on the current entries and the
loop's expiration). -/
def upsertEntry (now : Nat) (exp : Option Nat) (ts : List ObservableTag)
    (t : CatalogTag) : List ObservableTag :=
  if hasName ts t.name then
    updateFirst (fun e => e.name == t.name) (refreshEntry now) ts
  else ts ++ [⟨t.name, now, now, exp, true⟩]

/-- Every entry of the given name was (re)written at time `now` and is
fresh. -/
def allFreshAt (ts : List ObservableTag) (n : String) (now : Nat) : Prop :=
  ∀ e ∈ ts, e.name = n → e.lastSeen = now ∧ e.fresh = true

end Yeti

open Yeti

/-! ### Helper lemmas -/

/-- Freshness condition actually used by `expire_tags`: a truthy (non-null,
non-zero) expiration that has elapsed strictly. -/
theorem expireOne_spec (now : Nat) (t : ObservableTag) :
    (expireOne now t).name = t.name ∧
    (expireOne now t).firstSeen = t.firstSeen ∧
    (expireOne now t).lastSeen = t.lastSeen ∧
    (expireOne now t).expiration = t.expiration ∧
    ((expireOne now t).fresh = false ↔
      (t.fresh = false ∨ ∃ d, t.expiration = some d ∧ d ≠ 0 ∧ t.lastSeen + d < now)) := by
  cases hx : t.expiration with
  | none => simp [expireOne, hx]
  | some d =>
    by_cases hc : d ≠ 0 ∧ t.lastSeen + d < now
    · simp [expireOne, hx, hc]
    · simp [expireOne, hx, hc]

/-! ### C6: expire_tags -/

/-- C6 (amended): `expire_tags` never deletes an entry and never changes
any field except `fresh`; an entry ends up with `fresh = false` exactly
when it already was stale or its expiration is non-null, *non-zero* (a zero
duration is falsy in Python and is skipped) and strictly elapsed
(`now > lastSeen + expiration`); in particular `fresh` never flips from
false back to true. -/
theorem expire_tags_flips_exactly_stale (o : Observable) (now : Nat) :
    List.Forall₂ (fun t t' =>
      t'.name = t.name ∧ t'.firstSeen = t.firstSeen ∧ t'.lastSeen = t.lastSeen ∧
      t'.expiration = t.expiration ∧
      (t'.fresh = false ↔
        (t.fresh = false ∨ ∃ d, t.expiration = some d ∧ d ≠ 0 ∧ t.lastSeen + d < now)))
      o.tags (o.expire_tags now).tags := by
  show List.Forall₂ _ o.tags (o.tags.map (expireOne now))
  induction o.tags with
  | nil => exact List.Forall₂.nil
  | cons h t ih => exact List.Forall₂.cons (expireOne_spec now h) ih

/-- C6 (counterexample): an entry with the non-null expiration `some 0`,
`lastSeen = 0` and `now = 5` satisfies the claim's flip condition
(`expiration ≠ null` and `now > lastSeen + expiration`), yet `expire_tags`
leaves `fresh = true`, because `timedelta(0)` is falsy in
`if tag.expiration and ...`. -/
theorem expire_tags_zero_duration_not_flipped :
    (Observable.mk "v" [ObservableTag.mk "t" 0 0 (some 0) true] [] none).tags.map
        (fun e => (e.expiration, e.lastSeen)) = [(some 0, 0)] ∧
    (0 : Nat) + 0 < 5 ∧
    ((Observable.mk "v" [ObservableTag.mk "t" 0 0 (some 0) true] [] none).expire_tags 5).tags.map
        (fun e => e.fresh) = [true] := by decide

/-! ### C10: get_tags -/

/-- C10: `get_tags` with `fresh = true` (the Python default) returns
exactly the names of the entries whose `fresh` flag is set, in tag-list
order, and with `fresh = false` it returns every entry's name. -/
theorem get_tags_filters_by_freshness (o : Observable) :
    o.get_tags true = (o.tags.filter (fun t => t.fresh)).map (fun t => t.name) ∧
    o.get_tags false = o.tags.map (fun t => t.name) := by
  constructor
  · simp [Observable.get_tags]
  · simp [Observable.get_tags]

/-! ### C9: guess_type -/

/-- C9 (divergence witness for the code bug): for the empty and the
whitespace-only string, `guess_type` falls through its
`if string and string.strip() != ''` guard and returns `None` without
raising — even when every variant's matcher would accept — although its
docstring promises `ObservableValidationError` whenever no type could be
guessed; a non-blank unmatched string does raise that error. -/
theorem guess_type_blank_returns_none :
    guess_type (fun _ => true) (fun _ => true) (fun _ => true) (fun _ => true)
      (fun _ => true) "" = Except.ok none ∧
    guess_type (fun _ => true) (fun _ => true) (fun _ => true) (fun _ => true)
      (fun _ => true) "  " = Except.ok none ∧
    guess_type (fun _ => false) (fun _ => false) (fun _ => false) (fun _ => false)
      (fun _ => false) "x" =
      Except.error (YetiError.validationError "x was not recognized as a viable datatype") :=
  ⟨rfl, rfl, rfl⟩

/-! ### C5: add_context -/

/-- C5 (amended): `add_context` on a context map without a `source` key
fails with a bare `AssertionError` (the code's first statement is
`assert 'source' in context`, not a `ValidationError` with message
"missing source"), for any `replace_source` argument; since the assert
precedes every store mutation, no tag or context entry is touched. -/
theorem add_context_missing_source_asserts (o : Observable)
    (ctx : List (String × String)) (rs : Option String)
    (h : (ctxKeys ctx).contains "source" = false) :
    o.add_context ctx rs = Except.error YetiError.assertionError := by
  unfold Observable.add_context
  rw [h]
  simp

/-- C5 (witness): a concrete context map lacking `source`. -/
theorem add_context_missing_source_asserts_witness :
    Observable.add_context (Observable.mk "v" [] [] none) [("ip", "1.2.3.4")] none =
      Except.error YetiError.assertionError :=
  add_context_missing_source_asserts (Observable.mk "v" [] [] none)
    [("ip", "1.2.3.4")] none (by decide)

/-- C5 (counterexample): the failure is not the claimed
`ValidationError "missing source"` — also when `replace_source` is
given. -/
theorem add_context_missing_source_not_validation :
    Observable.add_context (Observable.mk "v" [] [] none) [("ip", "1.2.3.4")]
        (some "feedB") ≠
      Except.error (YetiError.validationError "missing source") := by
  intro h
  exact YetiError.noConfusion (Except.error.inj h)

/-! ### C2: expiration of newly appended entries -/

/-- C2 (amended): within one `tag` call the `expiration` variable is
loop-carried: each new entry receives the caller-supplied expiration when
that is truthy; otherwise the first truthy `default_expiration` encountered
is assigned to the variable and *carried over* to every later name of the
same call.  Here tag "a" has default `10`: for any catalog default of "b"
and any time, the entry appended for "b" also gets `10`; with a truthy
caller-supplied expiration `7`, both entries get `7`. -/
theorem tag_expiration_carried_over (e2 : Option Nat) (nowT : Nat) :
    ((Observable.tag
        [CatalogTag.mk 1 "a" [] [] (some 10) 0, CatalogTag.mk 2 "b" [] [] e2 0]
        (Observable.mk "v" [] [] none) ["a", "b"] false none nowT).2.tags.map
      (fun e => (e.name, e.expiration)) = [("a", some 10), ("b", some 10)]) ∧
    ((Observable.tag
        [CatalogTag.mk 1 "a" [] [] (some 10) 0, CatalogTag.mk 2 "b" [] [] e2 0]
        (Observable.mk "v" [] [] none) ["a", "b"] false (some 7) nowT).2.tags.map
      (fun e => (e.name, e.expiration)) = [("a", some 7), ("b", some 7)]) :=
  ⟨rfl, rfl⟩

/-- C2 (counterexample): tagging `["a", "b"]` with no caller-supplied
expiration, where tag "a" defaults to `10` and tag "b" to `99`, does *not*
give the "b" entry its own tag's default `99` — it inherits `10` from the
previously processed name. -/
theorem tag_expiration_not_own_default :
    ¬ ((Observable.tag
        [CatalogTag.mk 1 "a" [] [] (some 10) 0, CatalogTag.mk 2 "b" [] [] (some 99) 0]
        (Observable.mk "v" [] [] none) ["a", "b"] false none 5).2.tags.map
      (fun e => (e.name, e.expiration)) = [("a", some 10), ("b", some 99)]) := by
  decide

/-! ### C3: find_tags -/

/-- C3 (evaluation at the failing input): catalog tags "a" (id 1) and "b"
(id 2) both produce "c" (id 3).  With both "a" and "b" applied, the claim
expects the name-keyed tally `{"c" ↦ 2}`; the code computes the count `1`
(keyed by the produced tag document's id), because the read
`new_tags.get(tag, 0)` is keyed by the *applied* tag document.  With "a"
and "c" applied, the claim expects `{}` (the already-present name "c"
stripped); the code still returns the entry, because the strip compares a
Tag document with a string and never fires. -/
theorem find_tags_eval_at_failing_inputs :
    find_tags
        [CatalogTag.mk 1 "a" [] [3] none 0, CatalogTag.mk 2 "b" [] [3] none 0,
         CatalogTag.mk 3 "c" [] [] none 0]
        (Observable.mk "v"
          [ObservableTag.mk "a" 0 0 none true, ObservableTag.mk "b" 0 0 none true] [] none) =
      some [(3, 1)] ∧
    find_tags
        [CatalogTag.mk 1 "a" [] [3] none 0, CatalogTag.mk 2 "b" [] [3] none 0,
         CatalogTag.mk 3 "c" [] [] none 0]
        (Observable.mk "v"
          [ObservableTag.mk "a" 0 0 none true, ObservableTag.mk "c" 0 0 none true] [] none) =
      some [(3, 1)] := ⟨rfl, rfl⟩

/-! ### C4: strict retagging -/

/-- C4 (counterexample): the strict pass removes
`currentTagNames - rawNames`, computed on the *raw* input names.  The raw
name `" y "` normalizes to the current tag name `"y"` (first conjunct), and
the indicator holds entries x and y both with `firstSeen = 0` (second
conjunct).  Had the claim held — the current `"y"` entry not removed, only
kept/refreshed — the result would contain a `"y"` entry with
`firstSeen = 0`.  Instead (third conjunct) the call at time 5 yields
exactly `[⟨"y", 5, 5, none, true⟩]`: the current entry was removed by the
strict pass and a fresh entry appended, its `firstSeen` reset to 5. -/
theorem tag_strict_raw_name_removes_current :
    cleanTagName " y " = "y" ∧
    (Observable.mk "v"
        [ObservableTag.mk "x" 0 0 none true, ObservableTag.mk "y" 0 0 none true]
        [] none).tags.map (fun e => (e.name, e.firstSeen)) = [("x", 0), ("y", 0)] ∧
    (Observable.tag [CatalogTag.mk 1 "y" [] [] none 0]
        (Observable.mk "v"
          [ObservableTag.mk "x" 0 0 none true, ObservableTag.mk "y" 0 0 none true]
          [] none) [" y "] true none 5).2.tags =
      [ObservableTag.mk "y" 5 5 none true] := by decide

/-! ### List-level lemmas about the tag upsert -/

/-- Membership of names. -/
theorem name_mem_tagNames {e : ObservableTag} {ts : List ObservableTag}
    (h : e ∈ ts) : e.name ∈ tagNames ts :=
  List.mem_map_of_mem (fun x => x.name) h

/-- `hasName` decides membership in the name list. -/
theorem hasName_iff_mem {ts : List ObservableTag} {n : String} :
    hasName ts n = true ↔ n ∈ tagNames ts := by
  simp only [hasName, tagNames, List.any_eq_true, List.mem_map, beq_iff_eq]

/-- `hasName` is the definedness of `firstNamed`. -/
theorem hasName_eq_isSome (ts : List ObservableTag) (n : String) :
    hasName ts n = (firstNamed ts n).isSome := by
  induction ts with
  | nil => rfl
  | cons t ts ih =>
    by_cases h : t.name == n
    · simp [hasName, firstNamed, List.find?, h]
    · simp only [Bool.not_eq_true] at h
      simp [hasName, firstNamed, List.find?, h] at ih ⊢
      exact ih

/-- A found entry bears the searched name and belongs to the list. -/
theorem firstNamed_spec {ts : List ObservableTag} {n : String} {e : ObservableTag}
    (h : firstNamed ts n = some e) : e ∈ ts ∧ e.name = n := by
  have hm := List.mem_of_find?_eq_some h
  have hp := List.find?_some h
  exact ⟨hm, by simpa using hp⟩

/-- `updateFirst` with a name-preserving transformation preserves the name
list. -/
theorem tagNames_updateFirst (p : ObservableTag → Bool)
    (f : ObservableTag → ObservableTag) (hf : ∀ e, (f e).name = e.name)
    (ts : List ObservableTag) :
    tagNames (updateFirst p f ts) = tagNames ts := by
  induction ts with
  | nil => rfl
  | cons t ts ih =>
    by_cases h : p t
    · simp [updateFirst, h, tagNames, hf t]
    · simpa [updateFirst, h, tagNames] using ih

/-- Any element of `updateFirst p f ts` is an old element or the image of
an old element satisfying `p`. -/
theorem mem_updateFirst {p : ObservableTag → Bool} {f : ObservableTag → ObservableTag}
    {ts : List ObservableTag} {e : ObservableTag}
    (h : e ∈ updateFirst p f ts) : e ∈ ts ∨ ∃ e₀ ∈ ts, p e₀ = true ∧ e = f e₀ := by
  induction ts with
  | nil => cases h
  | cons t ts ih =>
    by_cases hp : p t
    · simp only [updateFirst, if_pos hp] at h
      rcases List.mem_cons.mp h with h | h
      · exact Or.inr ⟨t, List.mem_cons_self t ts, hp, h⟩
      · exact Or.inl (List.mem_cons_of_mem t h)
    · simp only [updateFirst, if_neg hp] at h
      rcases List.mem_cons.mp h with h | h
      · exact Or.inl (h ▸ List.mem_cons_self t ts)
      · rcases ih h with h | ⟨e₀, he₀, hpe, hfe⟩
        · exact Or.inl (List.mem_cons_of_mem t h)
        · exact Or.inr ⟨e₀, List.mem_cons_of_mem t he₀, hpe, hfe⟩

/-- Unfolding of `tagNames` on nil. -/
theorem tagNames_nil : tagNames [] = [] := rfl

/-- Unfolding of `tagNames` on cons. -/
theorem tagNames_cons (t : ObservableTag) (ts : List ObservableTag) :
    tagNames (t :: ts) = t.name :: tagNames ts := rfl

/-- The tag-list component of `upsertTag` is `upsertEntry`. -/
theorem upsertTag_snd (now : Nat) (exp : Option Nat)
    (st : Catalog × List ObservableTag) (t : CatalogTag) :
    (upsertTag now exp st t).2 = upsertEntry now exp st.2 t := by
  by_cases h : hasName st.2 t.name = true
  · simp [upsertTag, upsertEntry, h]
  · simp [upsertTag, upsertEntry, h]

/-- The tag-list component of the application-set fold is the fold of
`upsertEntry`. -/
theorem foldl_upsertTag_snd (now : Nat) (exp : Option Nat)
    (L : List CatalogTag) (st : Catalog × List ObservableTag) :
    (L.foldl (upsertTag now exp) st).2 = L.foldl (upsertEntry now exp) st.2 := by
  induction L generalizing st with
  | nil => rfl
  | cons u L ih =>
    simp only [List.foldl_cons]
    rw [ih, upsertTag_snd]

/-- An upsert of a present name preserves the name list. -/
theorem tagNames_upsertEntry_pos (now : Nat) (exp : Option Nat)
    (ts : List ObservableTag) (t : CatalogTag) (h : hasName ts t.name = true) :
    tagNames (upsertEntry now exp ts t) = tagNames ts := by
  simp only [upsertEntry, h, if_true]
  exact tagNames_updateFirst (fun e => e.name == t.name) (refreshEntry now)
    (fun e => rfl) ts

/-- An upsert of an absent name appends it to the name list. -/
theorem tagNames_upsertEntry_neg (now : Nat) (exp : Option Nat)
    (ts : List ObservableTag) (t : CatalogTag) (h : hasName ts t.name = false) :
    tagNames (upsertEntry now exp ts t) = tagNames ts ++ [t.name] := by
  simp [upsertEntry, h, tagNames]

/-- The upsert preserves uniqueness of names. -/
theorem nodup_upsertEntry (now : Nat) (exp : Option Nat)
    (ts : List ObservableTag) (t : CatalogTag) (h : (tagNames ts).Nodup) :
    (tagNames (upsertEntry now exp ts t)).Nodup := by
  cases hc : hasName ts t.name
  · rw [tagNames_upsertEntry_neg now exp ts t hc]
    have hnm : t.name ∉ tagNames ts := by
      intro hm
      have := hasName_iff_mem.mpr hm
      rw [hc] at this
      cases this
    simp [List.nodup_append, h, hnm]
  · rw [tagNames_upsertEntry_pos now exp ts t hc]
    exact h

/-- The upsert preserves name membership. -/
theorem mem_names_upsertEntry (now : Nat) (exp : Option Nat)
    (ts : List ObservableTag) (t : CatalogTag) {n : String}
    (h : n ∈ tagNames ts) : n ∈ tagNames (upsertEntry now exp ts t) := by
  cases hc : hasName ts t.name
  · rw [tagNames_upsertEntry_neg now exp ts t hc]
    exact List.mem_append_left _ h
  · rw [tagNames_upsertEntry_pos now exp ts t hc]
    exact h

/-- After an upsert of `t` its name is present. -/
theorem self_mem_names_upsertEntry (now : Nat) (exp : Option Nat)
    (ts : List ObservableTag) (t : CatalogTag) :
    t.name ∈ tagNames (upsertEntry now exp ts t) := by
  cases hc : hasName ts t.name
  · rw [tagNames_upsertEntry_neg now exp ts t hc]
    exact List.mem_append_right _ (List.mem_singleton_self _)
  · rw [tagNames_upsertEntry_pos now exp ts t hc]
    exact hasName_iff_mem.mp hc

/-- An upsert introduces no name other than `t.name`. -/
theorem names_upsertEntry_subset (now : Nat) (exp : Option Nat)
    (ts : List ObservableTag) (t : CatalogTag) {n : String}
    (h : n ∈ tagNames (upsertEntry now exp ts t)) :
    n ∈ tagNames ts ∨ n = t.name := by
  cases hc : hasName ts t.name
  · rw [tagNames_upsertEntry_neg now exp ts t hc] at h
    rcases List.mem_append.mp h with h | h
    · exact Or.inl h
    · exact Or.inr (List.mem_singleton.mp h)
  · rw [tagNames_upsertEntry_pos now exp ts t hc] at h
    exact Or.inl h

/-- Under unique names, after refreshing the first entry named `n` every
entry named `n` is fresh at `now`. -/
theorem allFreshAt_updateFirst_refresh (now : Nat) (n : String)
    (ts : List ObservableTag) (hnd : (tagNames ts).Nodup) :
    allFreshAt (updateFirst (fun e => e.name == n) (refreshEntry now) ts) n now := by
  induction ts with
  | nil => intro e he; cases he
  | cons t ts ih =>
    rw [tagNames_cons] at hnd
    by_cases hp : t.name = n
    · intro e he hn
      rw [show updateFirst (fun e => e.name == n) (refreshEntry now) (t :: ts) =
          refreshEntry now t :: ts by simp [updateFirst, hp]] at he
      rcases List.mem_cons.mp he with he | he
      · subst he
        exact ⟨rfl, rfl⟩
      · exfalso
        have : n ∈ tagNames ts := hn ▸ name_mem_tagNames he
        exact (List.nodup_cons.mp hnd).1 (hp ▸ this)
    · intro e he hn
      rw [show updateFirst (fun e => e.name == n) (refreshEntry now) (t :: ts) =
          t :: updateFirst (fun e => e.name == n) (refreshEntry now) ts by
            simp [updateFirst, hp]] at he
      rcases List.mem_cons.mp he with he | he
      · exact absurd (he ▸ hn) hp
      · exact ih (List.nodup_cons.mp hnd).2 e he hn

/-- Under unique names, after an upsert of `t` every entry named `t.name`
is fresh at `now`. -/
theorem allFreshAt_upsertEntry_self (now : Nat) (exp : Option Nat)
    (ts : List ObservableTag) (t : CatalogTag) (hnd : (tagNames ts).Nodup) :
    allFreshAt (upsertEntry now exp ts t) t.name now := by
  cases hc : hasName ts t.name
  · intro e he hn
    rw [show upsertEntry now exp ts t = ts ++ [⟨t.name, now, now, exp, true⟩] by
      simp [upsertEntry, hc]] at he
    rcases List.mem_append.mp he with he | he
    · exfalso
      have := hasName_iff_mem.mpr (hn ▸ name_mem_tagNames he)
      rw [hc] at this
      cases this
    · rw [List.mem_singleton.mp he]
      exact ⟨rfl, rfl⟩
  · rw [show upsertEntry now exp ts t =
      updateFirst (fun e => e.name == t.name) (refreshEntry now) ts by
        simp [upsertEntry, hc]]
    exact allFreshAt_updateFirst_refresh now t.name ts hnd

/-- An upsert of any tag preserves `allFreshAt` for the same instant. -/
theorem allFreshAt_upsertEntry_pres (now : Nat) (exp : Option Nat)
    (ts : List ObservableTag) (t : CatalogTag) {n : String}
    (h : allFreshAt ts n now) : allFreshAt (upsertEntry now exp ts t) n now := by
  cases hc : hasName ts t.name
  · intro e he hn
    rw [show upsertEntry now exp ts t = ts ++ [⟨t.name, now, now, exp, true⟩] by
      simp [upsertEntry, hc]] at he
    rcases List.mem_append.mp he with he | he
    · exact h e he hn
    · rw [List.mem_singleton.mp he]
      exact ⟨rfl, rfl⟩
  · intro e he hn
    rw [show upsertEntry now exp ts t =
      updateFirst (fun e => e.name == t.name) (refreshEntry now) ts by
        simp [upsertEntry, hc]] at he
    rcases mem_updateFirst he with he | ⟨e₀, he₀, _, hfe⟩
    · exact h e he hn
    · rw [hfe]
      exact ⟨rfl, rfl⟩

/-- The application-set fold preserves uniqueness of names. -/
theorem nodup_foldl_upsertEntry (now : Nat) (exp : Option Nat)
    (L : List CatalogTag) (ts : List ObservableTag)
    (h : (tagNames ts).Nodup) :
    (tagNames (L.foldl (upsertEntry now exp) ts)).Nodup := by
  induction L generalizing ts with
  | nil => exact h
  | cons u L ih =>
    simp only [List.foldl_cons]
    exact ih _ (nodup_upsertEntry now exp ts u h)

/-- The application-set fold preserves name membership. -/
theorem mem_names_foldl_upsertEntry (now : Nat) (exp : Option Nat)
    (L : List CatalogTag) (ts : List ObservableTag) {n : String}
    (h : n ∈ tagNames ts) : n ∈ tagNames (L.foldl (upsertEntry now exp) ts) := by
  induction L generalizing ts with
  | nil => exact h
  | cons u L ih =>
    simp only [List.foldl_cons]
    exact ih _ (mem_names_upsertEntry now exp ts u h)

/-- After the application-set fold, every applied tag's name is present. -/
theorem self_mem_names_foldl_upsertEntry (now : Nat) (exp : Option Nat)
    (L : List CatalogTag) (ts : List ObservableTag) {t : CatalogTag}
    (h : t ∈ L) : t.name ∈ tagNames (L.foldl (upsertEntry now exp) ts) := by
  induction L generalizing ts with
  | nil => cases h
  | cons u L ih =>
    simp only [List.foldl_cons]
    rcases List.mem_cons.mp h with h | h
    · subst h
      exact mem_names_foldl_upsertEntry now exp L _ (self_mem_names_upsertEntry now exp ts t)
    · exact ih _ h

/-- The application-set fold introduces no name beyond the applied tags'. -/
theorem names_foldl_upsertEntry_subset (now : Nat) (exp : Option Nat)
    (L : List CatalogTag) (ts : List ObservableTag) {n : String}
    (h : n ∈ tagNames (L.foldl (upsertEntry now exp) ts)) :
    n ∈ tagNames ts ∨ ∃ u ∈ L, u.name = n := by
  induction L generalizing ts with
  | nil => exact Or.inl h
  | cons u L ih =>
    simp only [List.foldl_cons] at h
    rcases ih _ h with h | ⟨v, hv, hn⟩
    · rcases names_upsertEntry_subset now exp ts u h with h | h
      · exact Or.inl h
      · exact Or.inr ⟨u, List.mem_cons_self u L, h.symm⟩
    · exact Or.inr ⟨v, List.mem_cons_of_mem u hv, hn⟩

/-- The application-set fold preserves `allFreshAt`. -/
theorem allFreshAt_foldl_upsertEntry_pres (now : Nat) (exp : Option Nat)
    (L : List CatalogTag) (ts : List ObservableTag) {n : String}
    (h : allFreshAt ts n now) :
    allFreshAt (L.foldl (upsertEntry now exp) ts) n now := by
  induction L generalizing ts with
  | nil => exact h
  | cons u L ih =>
    simp only [List.foldl_cons]
    exact ih _ (allFreshAt_upsertEntry_pres now exp ts u h)

/-- Under unique names, after the application-set fold every entry bearing
an applied tag's name is fresh at `now`. -/
theorem allFreshAt_foldl_upsertEntry (now : Nat) (exp : Option Nat)
    (L : List CatalogTag) (ts : List ObservableTag) {t : CatalogTag}
    (hL : t ∈ L) (hnd : (tagNames ts).Nodup) :
    allFreshAt (L.foldl (upsertEntry now exp) ts) t.name now := by
  induction L generalizing ts with
  | nil => cases hL
  | cons u L ih =>
    simp only [List.foldl_cons]
    rcases List.mem_cons.mp hL with h | h
    · subst h
      exact allFreshAt_foldl_upsertEntry_pres now exp L _
        (allFreshAt_upsertEntry_self now exp ts t hnd)
    · exact ih _ h (nodup_upsertEntry now exp ts u hnd)

/-! ### Catalog-side lemmas -/

/-- `get_or_create` returns a tag bearing the requested name. -/
theorem getOrCreate_name (cat : Catalog) (n : String) :
    (getOrCreate cat n).1.name = n := by
  cases h : findByName cat n with
  | none => simp [getOrCreate, h]
  | some t =>
    have h' : cat.find? (fun t => t.name == n) = some t := h
    have ht : t.name = n := by simpa using List.find?_some h'
    simp [getOrCreate, h, ht]

/-- With no alias for the name, resolution is `get_or_create`. -/
theorem canonicalPair_of_no_alias (cat : Catalog) (n : String)
    (h : findByReplaces cat n = none) :
    canonicalPair cat n = getOrCreate cat n := by
  simp [canonicalPair, h]

/-- With no alias for the name, the canonical tag bears the name itself. -/
theorem canonicalPair_name (cat : Catalog) (n : String)
    (h : findByReplaces cat n = none) :
    (canonicalPair cat n).1.name = n := by
  rw [canonicalPair_of_no_alias cat n h]
  exact getOrCreate_name cat n

/-- The canonical tag is in its application set. -/
theorem canonical_mem_extraTags (pair : CatalogTag × Catalog) :
    pair.1 ∈ extraTags pair := by
  simp [extraTags]

/-- A usage-count bump changes no alias list. -/
theorem replaces_mem_incCount (cat : Catalog) (i : Nat) {t : CatalogTag}
    (h : t ∈ incCount cat i) : ∃ t₀ ∈ cat, t.replaces = t₀.replaces := by
  rcases List.mem_map.mp h with ⟨t₀, ht₀, he⟩
  refine ⟨t₀, ht₀, ?_⟩
  by_cases hc : (t₀.tid == i) = true
  · rw [if_pos hc] at he
    rw [← he]
  · rw [if_neg hc] at he
    rw [← he]

/-- `incCount` preserves the absence of an alias. -/
theorem noAlias_incCount (cat : Catalog) (i : Nat) (n : String)
    (h : ∀ t ∈ cat, n ∉ t.replaces) :
    ∀ t ∈ incCount cat i, n ∉ t.replaces := by
  intro t ht
  rcases replaces_mem_incCount cat i ht with ⟨t₀, ht₀, he⟩
  rw [he]
  exact h t₀ ht₀

/-- `get_or_create` preserves the absence of an alias (a created tag has
an empty alias list). -/
theorem noAlias_getOrCreate (cat : Catalog) (m n : String)
    (h : ∀ t ∈ cat, n ∉ t.replaces) :
    ∀ t ∈ (getOrCreate cat m).2, n ∉ t.replaces := by
  intro t ht
  cases hf : findByName cat m with
  | some u =>
    rw [show (getOrCreate cat m).2 = cat by simp [getOrCreate, hf]] at ht
    exact h t ht
  | none =>
    rw [show (getOrCreate cat m).2 = cat ++ [⟨freshId cat, m, [], [], none, 0⟩] by
      simp [getOrCreate, hf]] at ht
    rcases List.mem_append.mp ht with ht | ht
    · exact h t ht
    · rw [List.mem_singleton.mp ht]
      simp

/-- Alias resolution preserves the absence of an alias. -/
theorem noAlias_canonicalPair (cat : Catalog) (m n : String)
    (h : ∀ t ∈ cat, n ∉ t.replaces) :
    ∀ t ∈ (canonicalPair cat m).2, n ∉ t.replaces := by
  intro t ht
  cases hf : findByReplaces cat m with
  | some u =>
    rw [show (canonicalPair cat m).2 = cat by simp [canonicalPair, hf]] at ht
    exact h t ht
  | none =>
    rw [show (canonicalPair cat m).2 = (getOrCreate cat m).2 by
      simp [canonicalPair, hf]] at ht
    exact noAlias_getOrCreate cat m n h t ht

/-- One upsert step preserves the absence of an alias in the catalog. -/
theorem noAlias_upsertTag (now : Nat) (exp : Option Nat)
    (st : Catalog × List ObservableTag) (u : CatalogTag) (n : String)
    (h : ∀ t ∈ st.1, n ∉ t.replaces) :
    ∀ t ∈ (upsertTag now exp st u).1, n ∉ t.replaces := by
  intro t ht
  by_cases hc : hasName st.2 u.name = true
  · rw [show (upsertTag now exp st u).1 = st.1 by simp [upsertTag, hc]] at ht
    exact h t ht
  · rw [show (upsertTag now exp st u).1 = incCount st.1 u.tid by
      simp [upsertTag, hc]] at ht
    exact noAlias_incCount st.1 u.tid n h t ht

/-- The application-set fold preserves the absence of an alias. -/
theorem noAlias_foldl_upsertTag (now : Nat) (exp : Option Nat)
    (L : List CatalogTag) (st : Catalog × List ObservableTag) (n : String)
    (h : ∀ t ∈ st.1, n ∉ t.replaces) :
    ∀ t ∈ (L.foldl (upsertTag now exp) st).1, n ∉ t.replaces := by
  induction L generalizing st with
  | nil => exact h
  | cons u L ih =>
    simp only [List.foldl_cons]
    exact ih _ (noAlias_upsertTag now exp st u n h)

/-- No alias means `Tag.objects.get(replaces=n)` raises `DoesNotExist`. -/
theorem findByReplaces_eq_none (cat : Catalog) (n : String)
    (h : ∀ t ∈ cat, n ∉ t.replaces) : findByReplaces cat n = none := by
  apply List.find?_eq_none.mpr
  intro t ht
  simpa using h t ht

/-! ### processName-level lemmas -/

/-- A blank raw name is skipped entirely. -/
theorem processName_of_blank (now : Nat) (st : TagLoopState) (raw : String)
    (hb : (pyStrip raw == "") = true) : processName now st raw = st := by
  simp [processName, hb]

/-- The tag entries produced by one non-blank name: the application-set
fold of `upsertEntry`. -/
theorem processName_tags (now : Nat) (st : TagLoopState) (raw : String)
    (hb : (pyStrip raw == "") = false) :
    (processName now st raw).tags =
      (extraTags (canonicalPair st.cat (cleanTagName raw))).foldl
        (upsertEntry now
          (resolveExp st.exp (canonicalPair st.cat (cleanTagName raw)).1))
        st.tags := by
  rw [show processName now st raw =
      ⟨((extraTags (canonicalPair st.cat (cleanTagName raw))).foldl
          (upsertTag now
            (resolveExp st.exp (canonicalPair st.cat (cleanTagName raw)).1))
          ((canonicalPair st.cat (cleanTagName raw)).2, st.tags)).1,
        ((extraTags (canonicalPair st.cat (cleanTagName raw))).foldl
          (upsertTag now
            (resolveExp st.exp (canonicalPair st.cat (cleanTagName raw)).1))
          ((canonicalPair st.cat (cleanTagName raw)).2, st.tags)).2,
        resolveExp st.exp (canonicalPair st.cat (cleanTagName raw)).1, true⟩ by
    simp [processName, hb]]
  exact foldl_upsertTag_snd _ _ _ _

/-- The catalog produced by one non-blank name. -/
theorem processName_cat (now : Nat) (st : TagLoopState) (raw : String)
    (hb : (pyStrip raw == "") = false) :
    (processName now st raw).cat =
      ((extraTags (canonicalPair st.cat (cleanTagName raw))).foldl
        (upsertTag now
          (resolveExp st.exp (canonicalPair st.cat (cleanTagName raw)).1))
        ((canonicalPair st.cat (cleanTagName raw)).2, st.tags)).1 := by
  simp [processName, hb]

/-- Processing a name preserves uniqueness of entry names. -/
theorem processName_nodup (now : Nat) (st : TagLoopState) (raw : String)
    (h : (tagNames st.tags).Nodup) :
    (tagNames (processName now st raw).tags).Nodup := by
  cases hb : (pyStrip raw == "")
  · rw [processName_tags now st raw hb]
    exact nodup_foldl_upsertEntry _ _ _ _ h
  · rw [processName_of_blank now st raw hb]
    exact h

/-- Processing a name preserves the absence of a given alias in the
catalog. -/
theorem noAlias_processName (now : Nat) (st : TagLoopState) (raw : String)
    (n : String) (h : ∀ t ∈ st.cat, n ∉ t.replaces) :
    ∀ t ∈ (processName now st raw).cat, n ∉ t.replaces := by
  cases hb : (pyStrip raw == "")
  · rw [processName_cat now st raw hb]
    exact noAlias_foldl_upsertTag _ _ _ _ n
      (noAlias_canonicalPair st.cat (cleanTagName raw) n h)
  · rw [processName_of_blank now st raw hb]
    exact h

/-- A non-blank, unaliased name ends up among the entry names. -/
theorem processName_canonical_mem (now : Nat) (st : TagLoopState) (raw : String)
    (hb : (pyStrip raw == "") = false)
    (halias : findByReplaces st.cat (cleanTagName raw) = none) :
    cleanTagName raw ∈ tagNames (processName now st raw).tags := by
  rw [processName_tags now st raw hb]
  have h2 := self_mem_names_foldl_upsertEntry now
    (resolveExp st.exp (canonicalPair st.cat (cleanTagName raw)).1)
    (extraTags (canonicalPair st.cat (cleanTagName raw))) st.tags
    (canonical_mem_extraTags (canonicalPair st.cat (cleanTagName raw)))
  rwa [canonicalPair_name st.cat (cleanTagName raw) halias] at h2

/-- Under unique names, after processing a non-blank unaliased name every
entry bearing it has `lastSeen = now` and `fresh = true`. -/
theorem processName_canonical_fresh (now : Nat) (st : TagLoopState) (raw : String)
    (hb : (pyStrip raw == "") = false)
    (halias : findByReplaces st.cat (cleanTagName raw) = none)
    (hnd : (tagNames st.tags).Nodup) :
    allFreshAt (processName now st raw).tags (cleanTagName raw) now := by
  rw [processName_tags now st raw hb]
  have h2 := allFreshAt_foldl_upsertEntry now
    (resolveExp st.exp (canonicalPair st.cat (cleanTagName raw)).1)
    (extraTags (canonicalPair st.cat (cleanTagName raw))) st.tags
    (canonical_mem_extraTags (canonicalPair st.cat (cleanTagName raw))) hnd
  rwa [canonicalPair_name st.cat (cleanTagName raw) halias] at h2

/-- Within a list of unique names, the entries of a present name form a
singleton. -/
theorem filter_name_length_one (ts : List ObservableTag) (n : String)
    (hnd : (tagNames ts).Nodup) (hm : n ∈ tagNames ts) :
    (ts.filter (fun e => e.name == n)).length = 1 := by
  induction ts with
  | nil => cases hm
  | cons t ts ih =>
    rw [tagNames_cons] at hnd hm
    by_cases hp : t.name = n
    · have hno : n ∉ tagNames ts := hp ▸ (List.nodup_cons.mp hnd).1
      have hnil : ts.filter (fun e => e.name == n) = [] := by
        apply List.filter_eq_nil_iff.mpr
        intro e he hc
        exact hno ((by simpa using hc) ▸ name_mem_tagNames he)
      simp [List.filter_cons, hp, hnil]
    · have hm' : n ∈ tagNames ts := by
        rcases List.mem_cons.mp hm with h | h
        · exact absurd h.symm hp
        · exact h
      have hpb : (t.name == n) = false := by simpa using hp
      simp only [List.filter_cons, hpb, Bool.false_eq_true, if_false]
      exact ih (List.nodup_cons.mp hnd).2 hm'

/-- The single-raw-name call `tag(o, [x], strict=False)` is one
`processName` step. -/
theorem tag_single (cat : Catalog) (o : Observable) (x : String)
    (exp : Option Nat) (now : Nat) :
    (Observable.tag cat o [x] false exp now).1 =
        (processName now ⟨cat, o.tags, exp, false⟩ x).cat ∧
    (Observable.tag cat o [x] false exp now).2.tags =
        (processName now ⟨cat, o.tags, exp, false⟩ x).tags :=
  ⟨rfl, rfl⟩

/-! ### C1: idempotent tagging -/

/-- C1: for any catalog without an alias for the normalized non-blank name
`x` and any indicator with unique tag names, calling `tag(o, [x])` twice
leaves exactly one entry named `x`, with `lastSeen` equal to the second
call's time and `fresh = true` (the second call takes the conditional
refresh path and appends nothing new for `x`), and the uniqueness-by-name
invariant of the tag set is preserved. -/
theorem tag_twice_idempotent (cat : Catalog) (o : Observable) (x : String)
    (t1 t2 : Nat)
    (hblank : pyStrip x ≠ "") (hclean : cleanTagName x = x)
    (halias : ∀ t ∈ cat, x ∉ t.replaces)
    (hnodup : (tagNames o.tags).Nodup) :
    ((Observable.tag (Observable.tag cat o [x] false none t1).1
        (Observable.tag cat o [x] false none t1).2 [x] false none t2).2.tags.filter
        (fun e => e.name == x)).length = 1 ∧
    allFreshAt (Observable.tag (Observable.tag cat o [x] false none t1).1
        (Observable.tag cat o [x] false none t1).2 [x] false none t2).2.tags x t2 ∧
    (tagNames (Observable.tag (Observable.tag cat o [x] false none t1).1
        (Observable.tag cat o [x] false none t1).2 [x] false none t2).2.tags).Nodup := by
  have hb : (pyStrip x == "") = false := by simpa using hblank
  have hal1 : findByReplaces cat (cleanTagName x) = none := by
    rw [hclean]
    exact findByReplaces_eq_none cat x halias
  have hnd1 : (tagNames (processName t1 ⟨cat, o.tags, none, false⟩ x).tags).Nodup :=
    processName_nodup t1 ⟨cat, o.tags, none, false⟩ x hnodup
  have hcat1 : ∀ t ∈ (processName t1 ⟨cat, o.tags, none, false⟩ x).cat,
      x ∉ t.replaces :=
    noAlias_processName t1 ⟨cat, o.tags, none, false⟩ x x halias
  have hal2 : findByReplaces (processName t1 ⟨cat, o.tags, none, false⟩ x).cat
      (cleanTagName x) = none := by
    rw [hclean]
    exact findByReplaces_eq_none _ x hcat1
  have hnd2 : (tagNames (processName t2
      ⟨(processName t1 ⟨cat, o.tags, none, false⟩ x).cat,
        (processName t1 ⟨cat, o.tags, none, false⟩ x).tags, none, false⟩ x).tags).Nodup :=
    processName_nodup t2 _ x hnd1
  have hmem2 : x ∈ tagNames (processName t2
      ⟨(processName t1 ⟨cat, o.tags, none, false⟩ x).cat,
        (processName t1 ⟨cat, o.tags, none, false⟩ x).tags, none, false⟩ x).tags := by
    have h := processName_canonical_mem t2
      ⟨(processName t1 ⟨cat, o.tags, none, false⟩ x).cat,
        (processName t1 ⟨cat, o.tags, none, false⟩ x).tags, none, false⟩ x hb hal2
    rwa [hclean] at h
  have hfresh2 : allFreshAt (processName t2
      ⟨(processName t1 ⟨cat, o.tags, none, false⟩ x).cat,
        (processName t1 ⟨cat, o.tags, none, false⟩ x).tags, none, false⟩ x).tags x t2 := by
    have h := processName_canonical_fresh t2
      ⟨(processName t1 ⟨cat, o.tags, none, false⟩ x).cat,
        (processName t1 ⟨cat, o.tags, none, false⟩ x).tags, none, false⟩ x hb hal2 hnd1
    rwa [hclean] at h
  exact ⟨filter_name_length_one _ x hnd2 hmem2, hfresh2, hnd2⟩

/-- C1 (witness): a fresh catalog and an untagged indicator, tagged twice
with `"x"` at times 1 and 2. -/
theorem tag_twice_idempotent_witness :
    ((Observable.tag
        (Observable.tag [] (Observable.mk "v" [] [] none) ["x"] false none 1).1
        (Observable.tag [] (Observable.mk "v" [] [] none) ["x"] false none 1).2
        ["x"] false none 2).2.tags.filter (fun e => e.name == "x")).length = 1 :=
  (tag_twice_idempotent [] (Observable.mk "v" [] [] none) "x" 1 2
    (by decide) (by decide) (by decide) (by decide)).1

/-! ### C8: single-level derivation -/

/-- C8: with catalog tags a, b, c where `a.produces = {b}` and
`b.produces = {c}` (distinct, unaliased), tagging `["a"]` puts entries
named "a" and "b" on the indicator but never "c": the application set is
one level of `produces` only.  The second half shows the cyclic catalog
`a.produces = {b}`, `b.produces = {a}`: the call still just applies "a"
and "b" — the (total, hence terminating) engine never chases the cycle. -/
theorem tag_derivation_one_level (dA dB dC : Option Nat) (cA cB cC : Nat)
    (o : Observable) (now : Nat)
    (hnoC : "c" ∉ tagNames o.tags) :
    ("a" ∈ tagNames (Observable.tag
        [CatalogTag.mk 1 "a" [] [2] dA cA, CatalogTag.mk 2 "b" [] [3] dB cB,
         CatalogTag.mk 3 "c" [] [] dC cC] o ["a"] false none now).2.tags ∧
      "b" ∈ tagNames (Observable.tag
        [CatalogTag.mk 1 "a" [] [2] dA cA, CatalogTag.mk 2 "b" [] [3] dB cB,
         CatalogTag.mk 3 "c" [] [] dC cC] o ["a"] false none now).2.tags ∧
      "c" ∉ tagNames (Observable.tag
        [CatalogTag.mk 1 "a" [] [2] dA cA, CatalogTag.mk 2 "b" [] [3] dB cB,
         CatalogTag.mk 3 "c" [] [] dC cC] o ["a"] false none now).2.tags) ∧
    ("a" ∈ tagNames (Observable.tag
        [CatalogTag.mk 1 "a" [] [2] dA cA, CatalogTag.mk 2 "b" [] [1] dB cB]
        o ["a"] false none now).2.tags ∧
      "b" ∈ tagNames (Observable.tag
        [CatalogTag.mk 1 "a" [] [2] dA cA, CatalogTag.mk 2 "b" [] [1] dB cB]
        o ["a"] false none now).2.tags) := by
  have e1 : (Observable.tag
      [CatalogTag.mk 1 "a" [] [2] dA cA, CatalogTag.mk 2 "b" [] [3] dB cB,
       CatalogTag.mk 3 "c" [] [] dC cC] o ["a"] false none now).2.tags =
      [CatalogTag.mk 2 "b" [] [3] dB cB, CatalogTag.mk 1 "a" [] [2] dA cA].foldl
        (upsertEntry now (resolveExp none (CatalogTag.mk 1 "a" [] [2] dA cA)))
        o.tags := by
    show (processName now
      ⟨[CatalogTag.mk 1 "a" [] [2] dA cA, CatalogTag.mk 2 "b" [] [3] dB cB,
        CatalogTag.mk 3 "c" [] [] dC cC], o.tags, none, false⟩ "a").tags = _
    rw [processName_tags now _ "a" (by decide)]
    rfl
  have e2 : (Observable.tag
      [CatalogTag.mk 1 "a" [] [2] dA cA, CatalogTag.mk 2 "b" [] [1] dB cB]
      o ["a"] false none now).2.tags =
      [CatalogTag.mk 2 "b" [] [1] dB cB, CatalogTag.mk 1 "a" [] [2] dA cA].foldl
        (upsertEntry now (resolveExp none (CatalogTag.mk 1 "a" [] [2] dA cA)))
        o.tags := by
    show (processName now
      ⟨[CatalogTag.mk 1 "a" [] [2] dA cA, CatalogTag.mk 2 "b" [] [1] dB cB],
        o.tags, none, false⟩ "a").tags = _
    rw [processName_tags now _ "a" (by decide)]
    rfl
  refine ⟨⟨?_, ?_, ?_⟩, ?_, ?_⟩
  · rw [e1]
    exact self_mem_names_foldl_upsertEntry now _ _ o.tags
      (show CatalogTag.mk 1 "a" [] [2] dA cA ∈
        [CatalogTag.mk 2 "b" [] [3] dB cB, CatalogTag.mk 1 "a" [] [2] dA cA] by simp)
  · rw [e1]
    exact self_mem_names_foldl_upsertEntry now _ _ o.tags
      (show CatalogTag.mk 2 "b" [] [3] dB cB ∈
        [CatalogTag.mk 2 "b" [] [3] dB cB, CatalogTag.mk 1 "a" [] [2] dA cA] by simp)
  · intro hc
    rw [e1] at hc
    rcases names_foldl_upsertEntry_subset now _ _ o.tags hc with h | ⟨u, hu, hn⟩
    · exact hnoC h
    · rcases List.mem_cons.mp hu with hu | hu
      · rw [hu] at hn
        exact absurd (show ("b" : String) = "c" from hn) (by decide)
      · rw [List.mem_singleton.mp hu] at hn
        exact absurd (show ("a" : String) = "c" from hn) (by decide)
  · rw [e2]
    exact self_mem_names_foldl_upsertEntry now _ _ o.tags
      (show CatalogTag.mk 1 "a" [] [2] dA cA ∈
        [CatalogTag.mk 2 "b" [] [1] dB cB, CatalogTag.mk 1 "a" [] [2] dA cA] by simp)
  · rw [e2]
    exact self_mem_names_foldl_upsertEntry now _ _ o.tags
      (show CatalogTag.mk 2 "b" [] [1] dB cB ∈
        [CatalogTag.mk 2 "b" [] [1] dB cB, CatalogTag.mk 1 "a" [] [2] dA cA] by simp)

/-- C8 (witness): the untagged indicator, at time 5, with all defaults
null and all usage counts 0. -/
theorem tag_derivation_one_level_witness :
    "a" ∈ tagNames (Observable.tag
      [CatalogTag.mk 1 "a" [] [2] none 0, CatalogTag.mk 2 "b" [] [3] none 0,
       CatalogTag.mk 3 "c" [] [] none 0]
      (Observable.mk "v" [] [] none) ["a"] false none 5).2.tags :=
  (tag_derivation_one_level none none none 0 0 0
    (Observable.mk "v" [] [] none) 5 (by decide)).1.1

/-! ### C4: strict retagging (amended) -/

/-- C4 (amended): `tag(o, rawNames, strict=true)` removes exactly
`currentTagNames - rawNames` computed on the *raw* (unnormalized,
unresolved) input names.  When the raw name equals the current name: with
`o` tagged `{x, y}`, `tag(o, ["y"], strict=true)` removes `x` and
refreshes the existing `y` entry in place (its `firstSeen` is preserved,
`lastSeen = now`, `fresh = true`).  A raw name that merely normalizes or
aliases to a current name does not protect that name from removal (see the
counterexample). -/
theorem tag_strict_removes_by_raw_name (cat : Catalog) (o : Observable)
    (nx ny : String) (ex ey : ObservableTag) (ty : CatalogTag) (now : Nat)
    (hxname : ex.name = nx) (hyname : ey.name = ny) (hne : nx ≠ ny)
    (htags : o.tags = [ex, ey])
    (hblank : pyStrip ny ≠ "") (hclean : cleanTagName ny = ny)
    (halias : findByReplaces cat ny = none)
    (hfind : findByName cat ny = some ty)
    (hprod : ty.produces = []) :
    (Observable.tag cat o [ny] true none now).2.tags =
      [{ ey with fresh := true, lastSeen := now }] := by
  have hb : (pyStrip ny == "") = false := by simpa using hblank
  have hnb : (nx == ny) = false := by simpa using hne
  have htyname : ty.name = ny := by
    have h' : cat.find? (fun t => t.name == ny) = some ty := hfind
    simpa using List.find?_some h'
  have hfilter : o.tags.filter (fun e => [ny].contains e.name) = [ey] := by
    rw [htags]
    simp [List.filter_cons, hxname, hyname, hnb]
    exact hne
  have h0 : (Observable.tag cat o [ny] true none now).2.tags =
      (processName now ⟨cat, o.tags.filter (fun e => [ny].contains e.name),
        none, false⟩ ny).tags := rfl
  rw [h0, hfilter, processName_tags now _ ny hb]
  show (extraTags (canonicalPair cat (cleanTagName ny))).foldl
      (upsertEntry now (resolveExp none (canonicalPair cat (cleanTagName ny)).1))
      [ey] = _
  rw [hclean]
  have hcp : canonicalPair cat ny = (ty, cat) := by
    simp [canonicalPair, halias, getOrCreate, hfind]
  rw [hcp]
  have hex : extraTags (ty, cat) = [ty] := by
    simp [extraTags, hprod]
  rw [hex]
  simp only [List.foldl_cons, List.foldl_nil]
  have hhn : hasName [ey] ny = true := by
    simp [hasName, hyname]
  simp [upsertEntry, hhn, updateFirst, htyname, hyname, refreshEntry]

/-- C4 (witness): catalog with tag "y", indicator tagged {x, y}, strict
retag with the raw name "y" at time 5. -/
theorem tag_strict_removes_by_raw_name_witness :
    (Observable.tag [CatalogTag.mk 1 "y" [] [] none 0]
      (Observable.mk "v"
        [ObservableTag.mk "x" 0 0 none true, ObservableTag.mk "y" 0 0 none true]
        [] none) ["y"] true none 5).2.tags =
      [ObservableTag.mk "y" 0 5 none true] :=
  tag_strict_removes_by_raw_name [CatalogTag.mk 1 "y" [] [] none 0]
    (Observable.mk "v"
      [ObservableTag.mk "x" 0 0 none true, ObservableTag.mk "y" 0 0 none true]
      [] none)
    "x" "y" (ObservableTag.mk "x" 0 0 none true) (ObservableTag.mk "y" 0 0 none true)
    (CatalogTag.mk 1 "y" [] [] none 0) 5
    rfl rfl (by decide) rfl (by decide) (by decide) rfl rfl rfl

/-! ### change_tag lemmas -/

/-- Unfolding of `hasName` on cons. -/
theorem hasName_cons (t : ObservableTag) (ts : List ObservableTag) (n : String) :
    hasName (t :: ts) n = (t.name == n || hasName ts n) := by
  simp [hasName]

/-- `hasName` only looks at the names. -/
theorem hasName_eq_names_any (ts : List ObservableTag) (n : String) :
    hasName ts n = (tagNames ts).any (fun m => m == n) := by
  induction ts with
  | nil => rfl
  | cons t ts ih => rw [hasName_cons, tagNames_cons, List.any_cons, ih]

/-- `firstNamed` on cons, name at the head. -/
theorem firstNamed_cons_of_pos (t : ObservableTag) (ts : List ObservableTag)
    (n : String) (h : t.name = n) : firstNamed (t :: ts) n = some t :=
  List.find?_cons_of_pos ts (by simp [h])

/-- `firstNamed` on cons, other name at the head. -/
theorem firstNamed_cons_of_neg (t : ObservableTag) (ts : List ObservableTag)
    (n : String) (h : ¬ t.name = n) : firstNamed (t :: ts) n = firstNamed ts n :=
  List.find?_cons_of_neg ts (by simp [h])

/-- `find?` commutes with a filter that keeps everything the predicate
accepts. -/
theorem find?_filter_of_imp (p q : ObservableTag → Bool)
    (h : ∀ e, p e = true → q e = true) (ts : List ObservableTag) :
    (ts.filter q).find? p = ts.find? p := by
  induction ts with
  | nil => rfl
  | cons t ts ih =>
    cases hq : q t
    · have hp : p t = false := by
        cases hpt : p t
        · rfl
        · rw [h t hpt] at hq
          cases hq
      rw [List.filter_cons_of_neg (by simp [hq]),
        List.find?_cons_of_neg _ (by simp [hp]), ih]
    · rw [List.filter_cons_of_pos (by simp [hq])]
      cases hpt : p t
      · rw [List.find?_cons_of_neg _ (by simp [hpt]),
          List.find?_cons_of_neg _ (by simp [hpt]), ih]
      · rw [List.find?_cons_of_pos _ (by simp [hpt]),
          List.find?_cons_of_pos _ (by simp [hpt])]

/-- After renaming the first `oldT` entry to `newT` (no `newT` entry
present), the first `newT` entry is that renamed entry. -/
theorem firstNamed_updateFirst_rename (ts : List ObservableTag)
    (oldT newT : String) (eo : ObservableTag)
    (hnew : ∀ e ∈ ts, e.name ≠ newT)
    (h : firstNamed ts oldT = some eo) :
    firstNamed (updateFirst (fun e => e.name == oldT)
      (fun e => { e with name := newT }) ts) newT =
      some { eo with name := newT } := by
  induction ts with
  | nil => cases h
  | cons t ts ih =>
    by_cases hp : t.name = oldT
    · have hpb : (t.name == oldT) = true := by simpa using hp
      have heo : eo = t := by
        rw [firstNamed_cons_of_pos t ts oldT hp] at h
        exact (Option.some.inj h).symm
      rw [show updateFirst (fun e => e.name == oldT)
          (fun e => { e with name := newT }) (t :: ts) =
          { t with name := newT } :: ts by simp [updateFirst, hpb]]
      rw [heo]
      exact firstNamed_cons_of_pos _ ts newT rfl
    · have hpb : (t.name == oldT) = false := by simpa using hp
      have h' : firstNamed ts oldT = some eo := by
        rw [firstNamed_cons_of_neg t ts oldT hp] at h
        exact h
      rw [show updateFirst (fun e => e.name == oldT)
          (fun e => { e with name := newT }) (t :: ts) =
          t :: updateFirst (fun e => e.name == oldT)
            (fun e => { e with name := newT }) ts by simp [updateFirst, hpb]]
      rw [firstNamed_cons_of_neg t _ newT (hnew t (List.mem_cons_self t ts))]
      exact ih (fun e he => hnew e (List.mem_cons_of_mem t he)) h'

/-- After renaming the first `oldT` entry to a different name, no `oldT`
entry remains (names were unique). -/
theorem hasName_updateFirst_rename (ts : List ObservableTag)
    (oldT newT : String) (hne : oldT ≠ newT)
    (hnd : (tagNames ts).Nodup) :
    hasName (updateFirst (fun e => e.name == oldT)
      (fun e => { e with name := newT }) ts) oldT = false := by
  induction ts with
  | nil => rfl
  | cons t ts ih =>
    rw [tagNames_cons] at hnd
    by_cases hp : t.name = oldT
    · have hpb : (t.name == oldT) = true := by simpa using hp
      rw [show updateFirst (fun e => e.name == oldT)
          (fun e => { e with name := newT }) (t :: ts) =
          { t with name := newT } :: ts by simp [updateFirst, hpb]]
      rw [hasName_cons]
      have h1 : oldT ∉ tagNames ts := hp ▸ (List.nodup_cons.mp hnd).1
      have h2 : hasName ts oldT = false := by
        cases hh : hasName ts oldT
        · rfl
        · exact absurd (hasName_iff_mem.mp hh) h1
      simp [h2, Ne.symm hne]
    · have hpb : (t.name == oldT) = false := by simpa using hp
      rw [show updateFirst (fun e => e.name == oldT)
          (fun e => { e with name := newT }) (t :: ts) =
          t :: updateFirst (fun e => e.name == oldT)
            (fun e => { e with name := newT }) ts by simp [updateFirst, hpb]]
      rw [hasName_cons, hpb]
      simpa using ih (List.nodup_cons.mp hnd).2

/-- Updating the first `n`-named entry with a name-preserving
transformation turns its `find?` result into the transformed entry. -/
theorem firstNamed_updateFirst_set (ts : List ObservableTag) (n : String)
    (f : ObservableTag → ObservableTag) (hf : ∀ e, (f e).name = e.name)
    (e : ObservableTag) (h : firstNamed ts n = some e) :
    firstNamed (updateFirst (fun x => x.name == n) f ts) n = some (f e) := by
  induction ts with
  | nil => cases h
  | cons t ts ih =>
    by_cases hp : t.name = n
    · have hpb : (t.name == n) = true := by simpa using hp
      have heo : e = t := by
        rw [firstNamed_cons_of_pos t ts n hp] at h
        exact (Option.some.inj h).symm
      rw [show updateFirst (fun x => x.name == n) f (t :: ts) = f t :: ts by
        simp [updateFirst, hpb]]
      rw [heo]
      exact firstNamed_cons_of_pos (f t) ts n (by rw [hf t, hp])
    · have hpb : (t.name == n) = false := by simpa using hp
      have h' : firstNamed ts n = some e := by
        rw [firstNamed_cons_of_neg t ts n hp] at h
        exact h
      rw [show updateFirst (fun x => x.name == n) f (t :: ts) =
          t :: updateFirst (fun x => x.name == n) f ts by simp [updateFirst, hpb]]
      rw [firstNamed_cons_of_neg t _ n hp]
      exact ih h'

/-- `pull__tags__name=n` leaves no entry named `n`. -/
theorem hasName_filter_self (ts : List ObservableTag) (n : String) :
    hasName (ts.filter (fun e => !(e.name == n))) n = false := by
  induction ts with
  | nil => rfl
  | cons t ts ih =>
    cases hp : (t.name == n)
    · rw [List.filter_cons_of_pos (by simp [hp])]
      rw [hasName_cons, hp]
      simpa using ih
    · rw [List.filter_cons_of_neg (by simp [hp])]
      exact ih

/-- `updateFirst` with a name-preserving transformation does not change
which names are present. -/
theorem hasName_updateFirst_of_name_preserving (p : ObservableTag → Bool)
    (f : ObservableTag → ObservableTag) (hf : ∀ e, (f e).name = e.name)
    (ts : List ObservableTag) (n : String) :
    hasName (updateFirst p f ts) n = hasName ts n := by
  rw [hasName_eq_names_any, hasName_eq_names_any, tagNames_updateFirst p f hf]

/-! ### C7: change_tag -/

/-- C7: for distinct names and an indicator with unique tag names,
`change_tag(old, new)` never leaves an entry named `old`; if no `new`
entry existed, the first `old` entry is renamed in place (all other fields,
in particular `firstSeen`, preserved); if a `new` entry existed, the `old`
entry is deleted and the `new` entry's `lastSeen` is refreshed to now —
so the indicator never holds both names after the call. -/
theorem change_tag_never_both (o : Observable) (oldT newT : String) (now : Nat)
    (hne : oldT ≠ newT) (hnd : (tagNames o.tags).Nodup) :
    hasName (o.change_tag oldT newT now).tags oldT = false ∧
    (∀ eo, firstNamed o.tags oldT = some eo → firstNamed o.tags newT = none →
      firstNamed (o.change_tag oldT newT now).tags newT =
        some { eo with name := newT }) ∧
    (∀ eo en, firstNamed o.tags oldT = some eo → firstNamed o.tags newT = some en →
      firstNamed (o.change_tag oldT newT now).tags newT =
        some { en with lastSeen := now }) := by
  have hnb : (newT == oldT) = false := by simpa using (Ne.symm hne)
  cases hB1 : hasName o.tags oldT with
  | false =>
    have hres : (o.change_tag oldT newT now).tags =
        (if hasName o.tags newT then
          updateFirst (fun e => e.name == newT)
            (fun e => { e with lastSeen := now }) o.tags
        else o.tags) := by
      simp [Observable.change_tag, hB1]
    refine ⟨?_, ?_, ?_⟩
    · rw [hres]
      cases hB2 : hasName o.tags newT
      · rw [if_neg (by simp [hB2])]
        exact hB1
      · rw [if_pos (by simp [hB2])]
        rw [hasName_updateFirst_of_name_preserving (fun e => e.name == newT)
          (fun e => { e with lastSeen := now }) (fun e => rfl)]
        exact hB1
    · intro eo ho _
      exfalso
      rw [hasName_eq_isSome, ho] at hB1
      exact Bool.noConfusion hB1
    · intro eo en ho _
      exfalso
      rw [hasName_eq_isSome, ho] at hB1
      exact Bool.noConfusion hB1
  | true =>
    cases hB2 : hasName o.tags newT with
    | false =>
      have hres : (o.change_tag oldT newT now).tags =
          updateFirst (fun e => e.name == oldT)
            (fun e => { e with name := newT }) o.tags := by
        simp [Observable.change_tag, hB1, hB2]
      refine ⟨?_, ?_, ?_⟩
      · rw [hres]
        exact hasName_updateFirst_rename o.tags oldT newT hne hnd
      · intro eo ho _
        rw [hres]
        refine firstNamed_updateFirst_rename o.tags oldT newT eo ?_ ho
        intro e he hn
        have hmem : hasName o.tags newT = true :=
          hasName_iff_mem.mpr (hn ▸ name_mem_tagNames he)
        rw [hB2] at hmem
        exact Bool.noConfusion hmem
      · intro eo en ho hen
        exfalso
        rw [hasName_eq_isSome, hen] at hB2
        exact Bool.noConfusion hB2
    | true =>
      have himp : ∀ e : ObservableTag, (e.name == newT) = true →
          (!(e.name == oldT)) = true := by
        intro e hpe
        have hh : e.name = newT := by simpa using hpe
        simp [hh, hnb]
      have hff : (o.tags.filter (fun e => !(e.name == oldT))).find?
          (fun e => e.name == newT) = o.tags.find? (fun e => e.name == newT) :=
        find?_filter_of_imp _ _ himp o.tags
      have hfeq : firstNamed (o.tags.filter (fun e => !(e.name == oldT))) newT =
          firstNamed o.tags newT := hff
      have ht2 : hasName (o.tags.filter (fun e => !(e.name == oldT))) newT = true := by
        rw [hasName_eq_isSome, hfeq, ← hasName_eq_isSome]
        exact hB2
      have hres : (o.change_tag oldT newT now).tags =
          updateFirst (fun e => e.name == newT)
            (fun e => { e with lastSeen := now })
            (o.tags.filter (fun e => !(e.name == oldT))) := by
        simp [Observable.change_tag, hB1, hB2, ht2]
      refine ⟨?_, ?_, ?_⟩
      · rw [hres, hasName_updateFirst_of_name_preserving (fun e => e.name == newT)
          (fun e => { e with lastSeen := now }) (fun e => rfl)]
        exact hasName_filter_self o.tags oldT
      · intro eo ho hnone
        exfalso
        rw [hasName_eq_isSome, hnone] at hB2
        exact Bool.noConfusion hB2
      · intro eo en ho hen
        rw [hres]
        refine firstNamed_updateFirst_set _ newT
          (fun e => { e with lastSeen := now }) (fun e => rfl) en ?_
        rw [hfeq]
        exact hen

/-- C7 (witness): indicator tagged `{old, new}`; merging "old" into "new"
at time 9 deletes "old" and refreshes "new"'s lastSeen. -/
theorem change_tag_never_both_witness :
    firstNamed ((Observable.mk "v"
      [ObservableTag.mk "old" 0 1 none true, ObservableTag.mk "new" 2 3 none true]
      [] none).change_tag "old" "new" 9).tags "new" =
      some (ObservableTag.mk "new" 2 9 none true) :=
  (change_tag_never_both (Observable.mk "v"
      [ObservableTag.mk "old" 0 1 none true, ObservableTag.mk "new" 2 3 none true]
      [] none) "old" "new" 9 (by decide) (by decide)).2.2
    (ObservableTag.mk "old" 0 1 none true) (ObservableTag.mk "new" 2 3 none true)
    rfl rfl
